import Mathlib

/-!
Verification of the Overmatch repository: the matching engine that links
OpenStreetMap query points with Overture candidate points, and the front-end
helpers that consume its output.

Strings are modelled as lists of characters (`Str`); rational numbers stand in
for the floating-point quantities of the implementation (distances,
similarities, scores), with comparisons and arithmetic carried out exactly.
-/

/-- Strings, modelled as lists of characters. -/
abbrev Str := List Char

namespace Osm

/-!
Embedding of `src/front_end/src/utils/osmHelpers.ts` (`formatOsmId`,
`parseOsmId`) and the `OsmElement` shape from `src/front_end/src/objects.ts`
(only the fields those helpers touch: `type` and `id`).
-/

/-- The `type` field of an `OsmElement`: `"node" | "way" | "relation"`. -/
inductive OsmType where
  | node
  | way
  | relation
deriving DecidableEq

/-- The character string of an `OsmType`, as interpolated by JavaScript. -/
def typeChars : OsmType → Str
  | OsmType.node => "node".data
  | OsmType.way => "way".data
  | OsmType.relation => "relation".data

/-- An OSM element, restricted to the fields used by the id helpers.
`id` is declared `number` in TypeScript and holds an integer. -/
structure OsmElement where
  type : OsmType
  id : Int
deriving DecidableEq

/-- Decimal digit characters of a natural number, most significant first:
the JavaScript stringification of a non-negative integer. -/
def natDigits (n : Nat) : Str :=
  if n < 10 then [Nat.digitChar n]
  else natDigits (n / 10) ++ [Nat.digitChar (n % 10)]
decreasing_by exact Nat.div_lt_self (by omega) (by omega)

/-- JavaScript `String(i)` for an integer-valued number `i`. -/
def intChars (i : Int) : Str :=
  if i < 0 then '-' :: natDigits i.natAbs else natDigits i.toNat

/-- `formatOsmId` from `osmHelpers.ts`: the template literal
`` `${element.type}/${element.id}` ``. -/
def formatOsmId (e : OsmElement) : Str :=
  typeChars e.type ++ '/' :: intChars e.id

/-- JavaScript `s.split("/")`: splits `s` into the (possibly empty) segments
between occurrences of `'/'`. -/
def splitSlash : Str → List Str
  | [] => [[]]
  | c :: rest =>
    if c = '/' then [] :: splitSlash rest
    else
      match splitSlash rest with
      | [] => [[c]]
      | seg :: segs => (c :: seg) :: segs

/-- Result of `parseOsmId`: the destructuring `const [type, id] = osmId.split("/")`
leaves `id` undefined (`none`) when the string has no `'/'`. -/
structure ParsedOsmId where
  type : Str
  id : Option Str
deriving DecidableEq

/-- `parseOsmId` from `osmHelpers.ts`. -/
def parseOsmId (s : Str) : ParsedOsmId :=
  match splitSlash s with
  | [] => ⟨[], none⟩
  | [t] => ⟨t, none⟩
  | t :: i :: _ => ⟨t, some i⟩

theorem natDigits_mem_digit {n : Nat} {c : Char} (hc : c ∈ natDigits n) :
    ∃ d, d < 10 ∧ c = Nat.digitChar d := by
  induction n using Nat.strong_induction_on with
  | _ n ih =>
    rw [natDigits] at hc
    by_cases h : n < 10
    · rw [if_pos h] at hc
      rcases List.mem_singleton.mp hc with rfl
      exact ⟨n, h, rfl⟩
    · rw [if_neg h] at hc
      rcases List.mem_append.mp hc with h1 | h2
      · exact ih (n / 10) (Nat.div_lt_self (by omega) (by omega)) h1
      · rcases List.mem_singleton.mp h2 with rfl
        exact ⟨n % 10, by omega, rfl⟩

theorem natDigits_ne_slash {n : Nat} {c : Char} (hc : c ∈ natDigits n) : c ≠ '/' := by
  rcases natDigits_mem_digit hc with ⟨d, hd, rfl⟩
  interval_cases d <;> decide

theorem intChars_ne_slash {i : Int} {c : Char} (hc : c ∈ intChars i) : c ≠ '/' := by
  rw [intChars] at hc
  by_cases h : i < 0
  · rw [if_pos h] at hc
    rcases List.mem_cons.mp hc with rfl | h'
    · decide
    · exact natDigits_ne_slash h'
  · rw [if_neg h] at hc
    exact natDigits_ne_slash hc

theorem typeChars_ne_slash (t : OsmType) : ∀ c ∈ typeChars t, c ≠ '/' := by
  cases t <;> decide

theorem splitSlash_no_slash {a : Str} (h : ∀ c ∈ a, c ≠ '/') : splitSlash a = [a] := by
  induction a with
  | nil => rfl
  | cons c rest ih =>
    have hc : c ≠ '/' := h c (List.mem_cons_self c rest)
    rw [splitSlash, if_neg hc, ih (fun x hx => h x (List.mem_cons_of_mem c hx))]

theorem splitSlash_append {a b : Str} (h : ∀ c ∈ a, c ≠ '/') :
    splitSlash (a ++ '/' :: b) = a :: splitSlash b := by
  induction a with
  | nil => simp [splitSlash]
  | cons c rest ih =>
    have hc : c ≠ '/' := h c (List.mem_cons_self c rest)
    have ih' := ih (fun x hx => h x (List.mem_cons_of_mem c hx))
    rw [List.cons_append, splitSlash, if_neg hc, ih']

/-- C10: `parseOsmId (formatOsmId e)` recovers the element's type string and
the decimal string of its numeric id. -/
theorem parseOsmId_formatOsmId (e : OsmElement) :
    parseOsmId (formatOsmId e) = ⟨typeChars e.type, some (intChars e.id)⟩ := by
  have h1 : splitSlash (typeChars e.type ++ '/' :: intChars e.id)
      = typeChars e.type :: splitSlash (intChars e.id) :=
    splitSlash_append (typeChars_ne_slash e.type)
  have h2 : splitSlash (intChars e.id) = [intChars e.id] :=
    splitSlash_no_slash (fun c hc => intChars_ne_slash hc)
  rw [parseOsmId, formatOsmId, h1, h2]

end Osm

namespace Front

/-!
Embedding of the front-end match types (`src/front_end/src/types/matching.ts`)
and the tag-merging logic of the `TagComparisonTable` variant in
`src/unnamed/part_006`. Tag values of type `any` are modelled as
`Option Str`: `none` stands for JavaScript `null`/`undefined` (skipped by the
merge), and `some v` for a value whose `String(value)` conversion is `v`.
-/

/-- `MatchInfo` from `types/matching.ts`: one JSONL record of the matching
engine, as consumed by the front end. -/
structure MatchInfo where
  osm_id : Str
  overture_id : Str
  lon : ℚ
  lat : ℚ
  distance_m : ℚ
  similarity : ℚ
  overture_tags : List (Str × Option Str)

/-- `MatchStatus` from `types/matching.ts`. -/
structure MatchStatus where
  osm_id : Str
  has_match : Bool
  «matches» : List MatchInfo

/-- Comparison used by `matches.sort((a, b) => a.distance_m - b.distance_m)`. -/
def distLE (a b : MatchInfo) : Prop := a.distance_m ≤ b.distance_m

instance : DecidableRel distLE := fun a b => inferInstanceAs (Decidable (_ ≤ _))

instance : IsTotal MatchInfo distLE := ⟨fun a b => le_total a.distance_m b.distance_m⟩

instance : IsTrans MatchInfo distLE := ⟨fun _ _ _ h h' => le_trans h h'⟩

/-- The stable ascending-by-distance sort of the match list
(`[...matches].sort((a, b) => a.distance_m - b.distance_m)`). -/
def sortByDistance (ms : List MatchInfo) : List MatchInfo :=
  ms.insertionSort distLE

/-- One step of the merge loop body: `if (value !== undefined && value !== null)
merged[key] = String(value)`. The merged object is modelled by its lookup
function. -/
def entryWrite (m : Str → Option Str) (kv : Str × Option Str) : Str → Option Str :=
  match kv.2 with
  | some v => fun k => if k = kv.1 then some v else m k
  | none => m

/-- Applying every tag entry of one match to the merged map, in entry order. -/
def applyTags (m : Str → Option Str) (mi : MatchInfo) : Str → Option Str :=
  mi.overture_tags.foldl entryWrite m

/-- `mergedOvertureTags` from `part_006`: matches are sorted by ascending
distance and processed in reverse order, so the closest match's writes land
last and win. -/
def mergedOvertureTags (ms : List MatchInfo) : Str → Option Str :=
  ((sortByDistance ms).reverse).foldl applyTags (fun _ => none)

/-- The value a single match's tag list would assign to key `k`
(the last entry with key `k` and a non-null value wins); `none` when the
match does not define `k`. -/
def lastDef (tags : List (Str × Option Str)) (k : Str) : Option Str :=
  match tags with
  | [] => none
  | kv :: t => (lastDef t k) <|> (if k = kv.1 then kv.2 else none)

theorem entryWrite_spec (m : Str → Option Str) (kv : Str × Option Str) (k : Str) :
    entryWrite m kv k = ((if k = kv.1 then kv.2 else none) <|> m k) := by
  rcases kv with ⟨key, v⟩
  cases v with
  | none => simp only [entryWrite]; split <;> simp
  | some v => simp only [entryWrite]; split <;> simp

theorem foldl_entryWrite (tags : List (Str × Option Str)) (m : Str → Option Str) (k : Str) :
    (tags.foldl entryWrite m) k = (lastDef tags k <|> m k) := by
  induction tags generalizing m with
  | nil => simp [lastDef]
  | cons kv t ih =>
    rw [List.foldl_cons, ih, lastDef, entryWrite_spec]
    rcases h : lastDef t k with _ | v <;> simp

theorem mergedOvertureTags_eq_findSome (l : List MatchInfo) (k : Str) :
    (l.reverse.foldl applyTags (fun _ => none)) k
      = l.findSome? (fun mi => lastDef mi.overture_tags k) := by
  induction l with
  | nil => simp
  | cons mi t ih =>
    rw [List.reverse_cons, List.foldl_append, List.foldl_cons, List.foldl_nil]
    show applyTags (t.reverse.foldl applyTags (fun _ => none)) mi k = _
    rw [applyTags, foldl_entryWrite, ih, List.findSome?]
    rcases h : lastDef mi.overture_tags k with _ | v <;> simp

/-- Over a list sorted by `distLE`, `findSome?` returns a hit whose distance is
minimal among all elements on which `f` fires. -/
theorem findSome_sorted_min {l : List MatchInfo} {f : MatchInfo → Option Str} {v : Str}
    (hs : List.Pairwise distLE l) (h : l.findSome? f = some v) :
    ∃ mi ∈ l, f mi = some v ∧ ∀ mi' ∈ l, f mi' ≠ none → mi.distance_m ≤ mi'.distance_m := by
  induction l with
  | nil => simp [List.findSome?] at h
  | cons a t ih =>
    rw [List.findSome?] at h
    rcases ha : f a with _ | w
    · rw [ha] at h
      rcases ih hs.of_cons h with ⟨mi, hmi, hf, hmin⟩
      refine ⟨mi, List.mem_cons_of_mem a hmi, hf, ?_⟩
      intro mi' hmi' hfire
      rcases List.mem_cons.mp hmi' with rfl | hmem
      · exact absurd ha hfire
      · exact hmin mi' hmem hfire
    · rw [ha] at h
      cases h
      refine ⟨a, List.mem_cons_self a t, ha, ?_⟩
      intro mi' hmi' _
      rcases List.mem_cons.mp hmi' with rfl | hmem
      · exact le_refl _
      · exact (List.pairwise_cons.mp hs).1 mi' hmem

/-- C8: for every key, the merged Overture tag map of `TagComparisonTable`
(`part_006`) returns `none` exactly when no match defines the key with a
non-null value, and otherwise returns the value defined by a match whose
`distance_m` is minimal among all matches defining the key. -/
theorem mergedOvertureTags_closest_priority (ms : List MatchInfo) (k : Str) :
    ((∀ mi ∈ ms, lastDef mi.overture_tags k = none) → mergedOvertureTags ms k = none)
    ∧ ((∃ mi ∈ ms, lastDef mi.overture_tags k ≠ none) → mergedOvertureTags ms k ≠ none)
    ∧ (∀ v, mergedOvertureTags ms k = some v →
        ∃ mi ∈ ms, lastDef mi.overture_tags k = some v
          ∧ ∀ mi' ∈ ms, lastDef mi'.overture_tags k ≠ none →
              mi.distance_m ≤ mi'.distance_m) := by
  have hchar : mergedOvertureTags ms k
      = (sortByDistance ms).findSome? (fun mi => lastDef mi.overture_tags k) :=
    mergedOvertureTags_eq_findSome (sortByDistance ms) k
  have hmem : ∀ mi, mi ∈ sortByDistance ms ↔ mi ∈ ms := by
    intro mi; exact List.mem_insertionSort distLE
  refine ⟨?_, ?_, ?_⟩
  · intro hnone
    rw [hchar]
    rw [List.findSome?_eq_none_iff]
    intro mi hmi
    exact hnone mi ((hmem mi).mp hmi)
  · intro ⟨mi, hmi, hdef⟩
    rw [hchar]
    intro hcontra
    rw [List.findSome?_eq_none_iff] at hcontra
    exact hdef (hcontra mi ((hmem mi).mpr hmi))
  · intro v hv
    rw [hchar] at hv
    have hs : List.Pairwise distLE (sortByDistance ms) :=
      List.sorted_insertionSort distLE ms
    rcases findSome_sorted_min hs hv with ⟨mi, hmi, hf, hmin⟩
    refine ⟨mi, (hmem mi).mp hmi, hf, ?_⟩
    intro mi' hmi' hfire
    exact hmin mi' ((hmem mi').mpr hmi') hfire

/-!
Embedding of the element filter in `fetchAndFilterElements` (`src/unnamed/
part_009`): elements fetched from Overpass are kept for review only when the
server reports a match, the element has not already been uploaded, and not all
of its matches have been skipped.
-/

/-- The body of `allElements.filter(...)` in `fetchAndFilterElements`.
`statuses` is `matchesResponse.elements`, `uploaded` is `uploadElements`,
`skipped` is `skippedOvertureIds`. -/
def keepElement (statuses : List MatchStatus) (uploaded : List Osm.OsmElement)
    (skipped : List Str) (e : Osm.OsmElement) : Bool :=
  match statuses.find? (fun m => decide (m.osm_id = Osm.formatOsmId e)) with
  | none => false
  | some st =>
    if !st.has_match then false
    else if (uploaded.map Osm.formatOsmId).contains (Osm.formatOsmId e) then false
    else if st.matches.all (fun m => skipped.contains m.overture_id) then false
    else true

/-- `matchedElements` in `fetchAndFilterElements`: the elements surviving the
filter (the subsequent shuffle only permutes them). -/
def matchedElements (elements : List Osm.OsmElement) (statuses : List MatchStatus)
    (uploaded : List Osm.OsmElement) (skipped : List Str) : List Osm.OsmElement :=
  elements.filter (keepElement statuses uploaded skipped)

/-- C9: an element is retained by the front-end match filter exactly when its
match status is found and has `has_match = true`, its formatted OSM id is not
among the uploaded elements' formatted ids, and at least one of its matches
has an Overture id outside the skipped list. -/
theorem mem_matchedElements (elements : List Osm.OsmElement)
    (statuses : List MatchStatus) (uploaded : List Osm.OsmElement)
    (skipped : List Str) (e : Osm.OsmElement) :
    e ∈ matchedElements elements statuses uploaded skipped
      ↔ e ∈ elements
        ∧ ∃ st, statuses.find? (fun m => decide (m.osm_id = Osm.formatOsmId e)) = some st
          ∧ st.has_match = true
          ∧ (∀ u ∈ uploaded, Osm.formatOsmId u ≠ Osm.formatOsmId e)
          ∧ ∃ mi ∈ st.matches, mi.overture_id ∉ skipped := by
  rw [matchedElements, List.mem_filter, keepElement]
  rcases hfind : statuses.find? (fun m => decide (m.osm_id = Osm.formatOsmId e))
      with _ | st
  · simp only [hfind]
    simp
  · simp only [hfind, Option.some.injEq]
    have hup : ((uploaded.map Osm.formatOsmId).contains (Osm.formatOsmId e) = false)
        ↔ (∀ u ∈ uploaded, Osm.formatOsmId u ≠ Osm.formatOsmId e) := by
      simp
    have hsk : ((st.matches.all fun m => skipped.contains m.overture_id) = false)
        ↔ (∃ mi ∈ st.matches, mi.overture_id ∉ skipped) := by
      simp
    constructor
    · rintro ⟨hmem, hkeep⟩
      refine ⟨hmem, st, rfl, ?_⟩
      split_ifs at hkeep with h1 h2 h3
      all_goals try cases hkeep
      refine ⟨?_, hup.mp ?_, hsk.mp ?_⟩
      · cases hb : st.has_match
        · exact absurd (by simp [hb]) h1
        · rfl
      · cases hc : (uploaded.map Osm.formatOsmId).contains (Osm.formatOsmId e)
        · rfl
        · exact absurd hc h2
      · cases hd : st.matches.all fun m => skipped.contains m.overture_id
        · rfl
        · exact absurd hd h3
    · rintro ⟨hmem, st', hst', hmatch, hupload, hskip⟩
      subst hst'
      refine ⟨hmem, ?_⟩
      rw [hmatch]
      rw [if_neg (by simp), if_neg (by rw [hup.mpr hupload]; simp),
        if_neg (by rw [hsk.mpr hskip]; simp)]

end Front

namespace Engine

/-!
Modelled from the spec: the matching engine itself (`scripts/match.py` in the
repository layout) is not present under `src/`; only its output types
(`src/front_end/src/types/matching.ts`) and its consumers are. The pipeline
below — Normalizer output, CandidateGenerator, Scorer, MatchSelector,
Reporter — is therefore modelled from §2–§4 and §6 of the spec. Quantities
that the spec leaves as tunable policy (the distance function, the name
similarity metric, the combined-score weighting) are parameters, bundled in
`Policy`; theorems assume only the properties the spec states for them.
-/

/-- Modelled from the spec: `SourcePoint` (§3), the normalized place record. -/
structure SourcePoint where
  id : Str
  lon : ℚ
  lat : ℚ
  name : Option Str
  tags : List (Str × Str)
deriving DecidableEq

/-- Modelled from the spec: the configuration surface (§6). -/
structure Config where
  max_link_distance_m : ℚ
  min_similarity : ℚ
  distance_only_max_m : ℚ
  allow_distance_only : Bool
  max_candidates_per_query : Nat
  max_matches_per_query : Nat

/-- Modelled from the spec: the tunable policy functions — great-circle
distance (§4.4 step 1), name similarity (§4.4 step 2), and the
combined-score weighting (§4.4 step 3, explicitly left open in §9). -/
structure Policy where
  dist : SourcePoint → SourcePoint → ℚ
  sim : Str → Str → ℚ
  comb : ℚ → ℚ → ℚ

/-- Modelled from the spec: `CandidatePair` (§3). The candidate point is
carried whole so that the Reporter can serialize its coordinates and tags. -/
structure CandidatePair where
  query_id : Str
  cand : SourcePoint
  distance_m : ℚ
  similarity : ℚ
  combined_score : ℚ
deriving DecidableEq

/-- The `candidate_id` reference of a `CandidatePair`. -/
def CandidatePair.candidate_id (p : CandidatePair) : Str := p.cand.id

/-- Modelled from the spec: `query_radius` (§4.2) — every candidate whose
distance to the query point is at most the radius, in dataset order. -/
def queryRadius (pol : Policy) (cands : List SourcePoint) (q : SourcePoint)
    (radius : ℚ) : List SourcePoint :=
  cands.filter (fun c => decide (pol.dist q c ≤ radius))

/-- Modelled from the spec: the generator fan-out cap (§4.3) — when the radius
result exceeds the cap, only the `cap` nearest by raw distance are kept. -/
def capCandidates (pol : Policy) (q : SourcePoint) (cap : Nat)
    (l : List SourcePoint) : List SourcePoint :=
  if l.length ≤ cap then l
  else (l.insertionSort (fun a b => pol.dist q a ≤ pol.dist q b)).take cap

/-- Modelled from the spec: the Scorer (§4.4) — distance, name similarity
(0 when either name is absent), and the combined score. -/
def mkPair (pol : Policy) (q c : SourcePoint) : CandidatePair :=
  let d := pol.dist q c
  let s := match q.name, c.name with
    | some a, some b => pol.sim a b
    | _, _ => 0
  ⟨q.id, c, d, s, pol.comb d s⟩

/-- Modelled from the spec: MatchSelector step 1 (§4.5, §8 boundary case) —
a pair survives when distance and similarity pass their thresholds; a pair
with no name on either side instead requires the distance-only policy and
the stricter distance bound. -/
def passes (cfg : Config) (q : SourcePoint) (p : CandidatePair) : Bool :=
  if q.name = none ∧ p.cand.name = none then
    cfg.allow_distance_only && decide (p.distance_m ≤ cfg.distance_only_max_m)
  else
    decide (p.distance_m ≤ cfg.max_link_distance_m)
      && decide (cfg.min_similarity ≤ p.similarity)

/-- Inserting a pair into a list already deduplicated by candidate id:
if the id is present, the higher-scoring pair is kept in place. -/
def dedupInsert (p : CandidatePair) : List CandidatePair → List CandidatePair
  | [] => [p]
  | q :: t =>
    if q.cand.id = p.cand.id then
      if q.combined_score < p.combined_score then p :: t else q :: t
    else q :: dedupInsert p t

/-- Modelled from the spec: MatchSelector step 2 (§4.5) — deduplicate by
`candidate_id`, keeping only the higher-scoring pair. -/
def dedupPairs : List CandidatePair → List CandidatePair
  | [] => []
  | p :: t => dedupInsert p (dedupPairs t)

/-- Modelled from the spec: the ranking order of MatchSelector step 3 (§4.5) —
descending `combined_score`, ties by ascending `distance_m`, remaining ties
by ascending `candidate_id` (lexicographic). -/
def matchLE (p q : CandidatePair) : Prop :=
  q.combined_score < p.combined_score
    ∨ (p.combined_score = q.combined_score
        ∧ (p.distance_m < q.distance_m
            ∨ (p.distance_m = q.distance_m ∧ p.cand.id ≤ q.cand.id)))

instance : DecidableRel matchLE := fun p q => by
  unfold matchLE
  infer_instance

instance : IsTotal CandidatePair matchLE := by
  constructor
  intro a b
  rcases lt_trichotomy a.combined_score b.combined_score with h | h | h
  · exact Or.inr (Or.inl h)
  · rcases lt_trichotomy a.distance_m b.distance_m with h' | h' | h'
    · exact Or.inl (Or.inr ⟨h, Or.inl h'⟩)
    · rcases le_total a.cand.id b.cand.id with h'' | h''
      · exact Or.inl (Or.inr ⟨h, Or.inr ⟨h', h''⟩⟩)
      · exact Or.inr (Or.inr ⟨h.symm, Or.inr ⟨h'.symm, h''⟩⟩)
    · exact Or.inr (Or.inr ⟨h.symm, Or.inl h'⟩)
  · exact Or.inl (Or.inl h)

instance : IsTrans CandidatePair matchLE := by
  constructor
  intro a b c hab hbc
  rcases hab with h1 | ⟨h1, h1'⟩
  · rcases hbc with h2 | ⟨h2, _⟩
    · exact Or.inl (lt_trans h2 h1)
    · exact Or.inl (h2 ▸ h1)
  · rcases hbc with h2 | ⟨h2, h2'⟩
    · exact Or.inl (h1 ▸ h2)
    · refine Or.inr ⟨h1.trans h2, ?_⟩
      rcases h1' with hd1 | ⟨hd1, hi1⟩
      · rcases h2' with hd2 | ⟨hd2, _⟩
        · exact Or.inl (lt_trans hd1 hd2)
        · exact Or.inl (hd2 ▸ hd1)
      · rcases h2' with hd2 | ⟨hd2, hi2⟩
        · exact Or.inl (hd1 ▸ hd2)
        · exact Or.inr ⟨hd1.trans hd2, le_trans hi1 hi2⟩

/-- Modelled from the spec: the scored pairs surviving MatchSelector step 1 —
candidate generation within `max_link_distance_m` (§4.3), fan-out cap,
scoring (§4.4), and threshold filtering (§4.5 step 1). -/
def scoredSurvivors (cfg : Config) (pol : Policy) (cands : List SourcePoint)
    (q : SourcePoint) : List CandidatePair :=
  (((capCandidates pol q cfg.max_candidates_per_query
        (queryRadius pol cands q cfg.max_link_distance_m)).map
      (mkPair pol q)).filter (passes cfg q))

/-- Modelled from the spec: the `MatchSet` for one query point (§3, §4.5) —
survivors deduplicated, ranked by `matchLE`, and truncated to
`max_matches_per_query`. -/
def matchSet (cfg : Config) (pol : Policy) (cands : List SourcePoint)
    (q : SourcePoint) : List CandidatePair :=
  ((dedupPairs (scoredSurvivors cfg pol cands q)).insertionSort matchLE).take
    cfg.max_matches_per_query

/-- The JSONL record shape of §6, with exactly the fields `osm_id`,
`overture_id`, `lon`, `lat`, `distance_m`, `similarity`, `overture_tags`
(matching `MatchInfo` in `src/front_end/src/types/matching.ts`). -/
structure MatchInfo where
  osm_id : Str
  overture_id : Str
  lon : ℚ
  lat : ℚ
  distance_m : ℚ
  similarity : ℚ
  overture_tags : List (Str × Str)
deriving DecidableEq

/-- Modelled from the spec: one Reporter record (§4.6, §6) — query id,
candidate id, candidate coordinates, distance, similarity, and the full
candidate tag bag. -/
def pairRecord (q : SourcePoint) (p : CandidatePair) : MatchInfo :=
  ⟨q.id, p.cand.id, p.cand.lon, p.cand.lat, p.distance_m, p.similarity, p.cand.tags⟩

/-- Modelled from the spec: the Reporter lines for one query point (§4.6) —
one record per surviving pair, none when the `MatchSet` is empty. -/
def reportQuery (q : SourcePoint) (ms : List CandidatePair) : List MatchInfo :=
  ms.map (pairRecord q)

/-- Modelled from the spec: a full run (§2, §5) — per-query `MatchSet`s
assembled in query-point input order and serialized. -/
def runEngine (cfg : Config) (pol : Policy) (cands : List SourcePoint)
    (queries : List SourcePoint) : List MatchInfo :=
  (queries.map (fun q => reportQuery q (matchSet cfg pol cands q))).flatten

theorem mem_dedupInsert {p x : CandidatePair} {l : List CandidatePair}
    (hx : x ∈ dedupInsert p l) : x = p ∨ x ∈ l := by
  induction l with
  | nil => simpa [dedupInsert] using hx
  | cons q t ih =>
    rw [dedupInsert] at hx
    split_ifs at hx with h1 h2
    · rcases List.mem_cons.mp hx with rfl | hmem
      · exact Or.inl rfl
      · exact Or.inr (List.mem_cons_of_mem q hmem)
    · exact Or.inr hx
    · rcases List.mem_cons.mp hx with rfl | hmem
      · exact Or.inr (List.mem_cons_self _ _)
      · rcases ih hmem with rfl | hmem'
        · exact Or.inl rfl
        · exact Or.inr (List.mem_cons_of_mem q hmem')

theorem mem_dedupPairs {x : CandidatePair} {l : List CandidatePair}
    (hx : x ∈ dedupPairs l) : x ∈ l := by
  induction l with
  | nil => simpa [dedupPairs] using hx
  | cons p t ih =>
    rw [dedupPairs] at hx
    rcases mem_dedupInsert hx with rfl | hmem
    · exact List.mem_cons_self x t
    · exact List.mem_cons_of_mem p (ih hmem)

theorem nodup_dedupInsert {p : CandidatePair} {l : List CandidatePair}
    (h : (l.map (fun x => x.cand.id)).Nodup) :
    ((dedupInsert p l).map (fun x => x.cand.id)).Nodup := by
  induction l with
  | nil => simp [dedupInsert]
  | cons q t ih =>
    rw [List.map_cons, List.nodup_cons] at h
    rw [dedupInsert]
    split_ifs with h1 h2
    · rw [List.map_cons, List.nodup_cons]
      exact ⟨by rw [← h1]; exact h.1, h.2⟩
    · rw [List.map_cons, List.nodup_cons]
      exact h
    · rw [List.map_cons, List.nodup_cons]
      refine ⟨?_, ih h.2⟩
      intro hmem
      rcases List.mem_map.mp hmem with ⟨y, hy, hid⟩
      rcases mem_dedupInsert hy with rfl | hyt
      · exact h1 hid.symm
      · exact h.1 (hid ▸ List.mem_map_of_mem (fun x => x.cand.id) hyt)

theorem nodup_dedupPairs (l : List CandidatePair) :
    ((dedupPairs l).map (fun x => x.cand.id)).Nodup := by
  induction l with
  | nil => simp [dedupPairs]
  | cons p t ih => exact nodup_dedupInsert ih

theorem dedupInsert_best_self (p : CandidatePair) (l : List CandidatePair) :
    ∃ y ∈ dedupInsert p l, y.cand.id = p.cand.id ∧ p.combined_score ≤ y.combined_score := by
  induction l with
  | nil => exact ⟨p, by simp [dedupInsert]⟩
  | cons q t ih =>
    rw [dedupInsert]
    split_ifs with h1 h2
    · exact ⟨p, List.mem_cons_self p t, rfl, le_refl _⟩
    · exact ⟨q, List.mem_cons_self q t, h1, le_of_not_lt h2⟩
    · rcases ih with ⟨y, hy, hid, hsc⟩
      exact ⟨y, List.mem_cons_of_mem q hy, hid, hsc⟩

theorem dedupInsert_best_mem {x : CandidatePair} {l : List CandidatePair}
    (p : CandidatePair) (hx : x ∈ l) :
    ∃ y ∈ dedupInsert p l, y.cand.id = x.cand.id ∧ x.combined_score ≤ y.combined_score := by
  induction l with
  | nil => cases hx
  | cons q t ih =>
    rw [dedupInsert]
    rcases List.mem_cons.mp hx with rfl | hmem
    · split_ifs with h1 h2
      · exact ⟨p, List.mem_cons_self _ _, h1.symm, le_of_lt h2⟩
      · exact ⟨x, List.mem_cons_self _ _, rfl, le_refl _⟩
      · exact ⟨x, List.mem_cons_self _ _, rfl, le_refl _⟩
    · split_ifs with h1 h2
      · exact ⟨x, List.mem_cons_of_mem p hmem, rfl, le_refl _⟩
      · exact ⟨x, List.mem_cons_of_mem q hmem, rfl, le_refl _⟩
      · rcases ih hmem with ⟨y, hy, hid, hsc⟩
        exact ⟨y, List.mem_cons_of_mem q hy, hid, hsc⟩

theorem dedupPairs_best {x : CandidatePair} {l : List CandidatePair} (hx : x ∈ l) :
    ∃ y ∈ dedupPairs l, y.cand.id = x.cand.id ∧ x.combined_score ≤ y.combined_score := by
  induction l with
  | nil => cases hx
  | cons p t ih =>
    rw [dedupPairs]
    rcases List.mem_cons.mp hx with rfl | hmem
    · exact dedupInsert_best_self x (dedupPairs t)
    · rcases ih hmem with ⟨y, hy, hid, hsc⟩
      rcases dedupInsert_best_mem p hy with ⟨z, hz, hid', hsc'⟩
      exact ⟨z, hz, hid' ▸ hid, le_trans hsc hsc'⟩

theorem mem_capCandidates {pol : Policy} {q : SourcePoint} {cap : Nat}
    {l : List SourcePoint} {c : SourcePoint} (hc : c ∈ capCandidates pol q cap l) :
    c ∈ l := by
  rw [capCandidates] at hc
  split_ifs at hc with h
  · exact hc
  · exact (List.mem_insertionSort _).mp (List.mem_of_mem_take hc)

theorem scoredSurvivors_spec {cfg : Config} {pol : Policy} {cands : List SourcePoint}
    {q : SourcePoint} {p : CandidatePair} (hp : p ∈ scoredSurvivors cfg pol cands q) :
    ∃ c ∈ cands, p = mkPair pol q c ∧ passes cfg q p = true := by
  rw [scoredSurvivors, List.mem_filter] at hp
  rcases hp with ⟨hmap, hpass⟩
  rcases List.mem_map.mp hmap with ⟨c, hc, rfl⟩
  have hc' : c ∈ queryRadius pol cands q cfg.max_link_distance_m := mem_capCandidates hc
  exact ⟨c, (List.mem_filter.mp hc').1, rfl, hpass⟩

theorem mem_matchSet {cfg : Config} {pol : Policy} {cands : List SourcePoint}
    {q : SourcePoint} {p : CandidatePair} (hp : p ∈ matchSet cfg pol cands q) :
    p ∈ scoredSurvivors cfg pol cands q := by
  rw [matchSet] at hp
  exact mem_dedupPairs ((List.mem_insertionSort _).mp (List.mem_of_mem_take hp))

/-- C4: the Reporter emits exactly one line per surviving candidate of a query
point, and every such line carries the query point's id as `osm_id`. -/
theorem reporter_one_line_per_candidate (cfg : Config) (pol : Policy)
    (cands : List SourcePoint) (q : SourcePoint) :
    (reportQuery q (matchSet cfg pol cands q)).length = (matchSet cfg pol cands q).length
    ∧ ∀ r ∈ reportQuery q (matchSet cfg pol cands q), r.osm_id = q.id := by
  constructor
  · exact List.length_map _ _
  · intro r hr
    rcases List.mem_map.mp hr with ⟨p, _, rfl⟩
    rfl

/-- C5: per query point, the emitted `MatchSet` has pairwise distinct candidate
ids and every pair carries the query's id, so at most one pair exists per
ordered (query id, candidate id); at the dedup stage, every discarded pair is
dominated by a kept pair with the same candidate id and at least its score. -/
theorem matchSet_unique_candidates (cfg : Config) (pol : Policy)
    (cands : List SourcePoint) (q : SourcePoint) :
    ((matchSet cfg pol cands q).map CandidatePair.candidate_id).Nodup
    ∧ (∀ p ∈ matchSet cfg pol cands q, p.query_id = q.id)
    ∧ ∀ x ∈ scoredSurvivors cfg pol cands q,
        ∃ y ∈ dedupPairs (scoredSurvivors cfg pol cands q),
          y.candidate_id = x.candidate_id ∧ x.combined_score ≤ y.combined_score := by
  refine ⟨?_, ?_, ?_⟩
  · have h1 := nodup_dedupPairs (scoredSurvivors cfg pol cands q)
    have hperm : ((dedupPairs (scoredSurvivors cfg pol cands q)).insertionSort
        matchLE).Perm (dedupPairs (scoredSurvivors cfg pol cands q)) :=
      List.perm_insertionSort matchLE _
    have h2 : (((dedupPairs (scoredSurvivors cfg pol cands q)).insertionSort
        matchLE).map (fun x => x.cand.id)).Nodup :=
      ((hperm.map (fun x => x.cand.id)).nodup_iff).mpr h1
    have h3 := (List.take_sublist cfg.max_matches_per_query
      ((dedupPairs (scoredSurvivors cfg pol cands q)).insertionSort matchLE)).map
      (fun x => x.cand.id)
    exact h2.sublist h3
  · intro p hp
    rcases scoredSurvivors_spec (mem_matchSet hp) with ⟨c, _, rfl, _⟩
    rfl
  · intro x hx
    exact dedupPairs_best hx

/-- C3: every emitted pair has similarity in [0, 1] (0 whenever a name is
absent on either side) and non-negative distance bounded by
`max_link_distance_m`, or by `distance_only_max_m` instead when both names
are absent. -/
theorem matchSet_bounds (cfg : Config) (pol : Policy) (cands : List SourcePoint)
    (q : SourcePoint)
    (hsim : ∀ a b, 0 ≤ pol.sim a b ∧ pol.sim a b ≤ 1)
    (hdist : ∀ a c, 0 ≤ pol.dist a c) :
    ∀ p ∈ matchSet cfg pol cands q,
      (0 ≤ p.similarity ∧ p.similarity ≤ 1)
      ∧ 0 ≤ p.distance_m
      ∧ (if q.name = none ∧ p.cand.name = none
          then p.distance_m ≤ cfg.distance_only_max_m
          else p.distance_m ≤ cfg.max_link_distance_m)
      ∧ ((q.name = none ∨ p.cand.name = none) → p.similarity = 0) := by
  intro p hp
  rcases scoredSurvivors_spec (mem_matchSet hp) with ⟨c, _, rfl, hpass⟩
  refine ⟨?_, ?_, ?_, ?_⟩
  · rcases hq : q.name with _ | a <;> rcases hc : c.name with _ | b
    · simp [mkPair, hq, hc]
    · simp [mkPair, hq, hc]
    · simp [mkPair, hq, hc]
    · simpa [mkPair, hq, hc] using hsim a b
  · exact hdist q c
  · rw [passes] at hpass
    split_ifs at hpass with h
    · rw [if_pos h]
      simp only [Bool.and_eq_true, decide_eq_true_eq] at hpass
      exact hpass.2
    · rw [if_neg h]
      simp only [Bool.and_eq_true, decide_eq_true_eq] at hpass
      exact hpass.1
  · intro habs
    rcases hq : q.name with _ | a <;> rcases hc : c.name with _ | b <;>
      simp [mkPair, hq, hc] at habs ⊢

theorem mem_runEngine {cfg : Config} {pol : Policy} {cands : List SourcePoint}
    {queries : List SourcePoint} {r : MatchInfo} :
    r ∈ runEngine cfg pol cands queries
      ↔ ∃ q ∈ queries, ∃ p ∈ matchSet cfg pol cands q, r = pairRecord q p := by
  simp only [runEngine, reportQuery, List.mem_flatten, List.mem_map]
  constructor
  · rintro ⟨sub, ⟨q, hq, rfl⟩, hr⟩
    rcases List.mem_map.mp hr with ⟨p, hp, rfl⟩
    exact ⟨q, hq, p, hp, rfl⟩
  · rintro ⟨q, hq, p, hp, rfl⟩
    exact ⟨_, ⟨q, hq, rfl⟩, List.mem_map_of_mem _ hp⟩

theorem runEngine_cons (cfg : Config) (pol : Policy) (cands : List SourcePoint)
    (q : SourcePoint) (rest : List SourcePoint) :
    runEngine cfg pol cands (q :: rest)
      = reportQuery q (matchSet cfg pol cands q) ++ runEngine cfg pol cands rest := by
  rw [runEngine, List.map_cons, List.flatten_cons, runEngine]

/-- C1: with distinct query ids, the run's output restricted to one query point
is exactly one record per surviving pair of that query point (so a query point
with an empty `MatchSet` contributes no record), and every output record is
the serialization of some surviving pair, carrying the query id, candidate id,
candidate coordinates, distance, similarity, and candidate tag bag. -/
theorem runEngine_records (cfg : Config) (pol : Policy) (cands : List SourcePoint)
    (queries : List SourcePoint) (hids : (queries.map SourcePoint.id).Nodup) :
    (∀ q ∈ queries,
      (runEngine cfg pol cands queries).filter (fun r => decide (r.osm_id = q.id))
        = (matchSet cfg pol cands q).map (pairRecord q))
    ∧ ∀ r ∈ runEngine cfg pol cands queries,
        ∃ q ∈ queries, ∃ p ∈ matchSet cfg pol cands q, r = pairRecord q p := by
  refine ⟨?_, fun r hr => mem_runEngine.mp hr⟩
  induction queries with
  | nil => intro q hq; cases hq
  | cons q' rest ih =>
    rw [List.map_cons, List.nodup_cons] at hids
    intro q hq
    rw [runEngine_cons, List.filter_append]
    rcases List.mem_cons.mp hq with rfl | hmem
    · have hown : (reportQuery q (matchSet cfg pol cands q)).filter
          (fun r => decide (r.osm_id = q.id)) = (matchSet cfg pol cands q).map (pairRecord q) := by
        rw [reportQuery, List.filter_eq_self]
        intro r hr
        rcases List.mem_map.mp hr with ⟨p, _, rfl⟩
        exact decide_eq_true rfl
      have hrest : (runEngine cfg pol cands rest).filter
          (fun r => decide (r.osm_id = q.id)) = [] := by
        rw [List.filter_eq_nil_iff]
        intro r hr
        rcases mem_runEngine.mp hr with ⟨q'', hq'', p, _, rfl⟩
        simp only [decide_eq_true_eq]
        intro hcontra
        have hqid : q''.id = q.id := hcontra
        exact hids.1 (hqid ▸ List.mem_map_of_mem SourcePoint.id hq'')
      rw [hown, hrest, List.append_nil]
    · have hown : (reportQuery q' (matchSet cfg pol cands q')).filter
          (fun r => decide (r.osm_id = q.id)) = [] := by
        rw [reportQuery, List.filter_eq_nil_iff]
        intro r hr
        rcases List.mem_map.mp hr with ⟨p, _, rfl⟩
        simp only [decide_eq_true_eq]
        intro hcontra
        have hqid : q'.id = q.id := hcontra
        exact hids.1 (hqid ▸ List.mem_map_of_mem SourcePoint.id hmem)
      rw [hown, List.nil_append]
      exact ih hids.2 q hmem

/-- Scenario C query point: named, at the origin of the local frame. -/
def qC : SourcePoint := ⟨"q1".data, 0, 0, some "Query Name".data, []⟩

/-- Scenario C candidate matched at 10 m with similarity 0.95. -/
def cNear : SourcePoint := ⟨"near".data, 0, 0, some "Near Name".data, []⟩

/-- Scenario C candidate matched at 30 m with similarity 0.9. -/
def cFar : SourcePoint := ⟨"far".data, 0, 0, some "Far Name".data, []⟩

/-- C2: every emitted `MatchSet` is sorted by `matchLE` (descending
`combined_score`, ties by ascending `distance_m`, remaining ties by ascending
`candidate_id`); and in Scenario C — two candidates above thresholds, one with
similarity 0.95 at 10 m and one with similarity 0.9 at 30 m,
`max_matches_per_query = 2` and any monotonic combined score — the
10 m / 0.95 pair is listed first. -/
theorem matchSet_sorted (cfg : Config) (pol : Policy) (cands : List SourcePoint)
    (q : SourcePoint) (pol' : Policy) (d0 : ℚ) (b : Bool) (nc : Nat)
    (hnc : 2 ≤ nc)
    (hdn : pol'.dist qC cNear = 10)
    (hdf : pol'.dist qC cFar = 30)
    (hsn : pol'.sim ("Query Name".data) ("Near Name".data) = 95 / 100)
    (hsf : pol'.sim ("Query Name".data) ("Far Name".data) = 9 / 10)
    (hmd : ∀ s d d', d ≤ d' → pol'.comb d' s ≤ pol'.comb d s)
    (hms : ∀ d s s', s ≤ s' → pol'.comb d s ≤ pol'.comb d s') :
    List.Sorted matchLE (matchSet cfg pol cands q)
    ∧ matchSet ⟨50, 8 / 10, d0, b, nc, 2⟩ pol' [cFar, cNear] qC
        = [mkPair pol' qC cNear, mkPair pol' qC cFar] := by
  constructor
  · rw [matchSet]
    exact (List.sorted_insertionSort matchLE _).sublist (List.take_sublist _ _)
  · have hqn : qC.name = some ("Query Name".data) := rfl
    have hnn : cNear.name = some ("Near Name".data) := rfl
    have hfn : cFar.name = some ("Far Name".data) := rfl
    have hpairN : mkPair pol' qC cNear
        = ⟨qC.id, cNear, 10, 95 / 100, pol'.comb 10 (95 / 100)⟩ := by
      simp only [mkPair, hqn, hnn, hdn, hsn]
    have hpairF : mkPair pol' qC cFar
        = ⟨qC.id, cFar, 30, 9 / 10, pol'.comb 30 (9 / 10)⟩ := by
      simp only [mkPair, hqn, hfn, hdf, hsf]
    rw [hpairN, hpairF]
    have hA : queryRadius pol' [cFar, cNear] qC (50 : ℚ) = [cFar, cNear] := by
      rw [queryRadius, List.filter_cons, List.filter_cons, List.filter_nil, hdf, hdn]
      norm_num
    have hB : capCandidates pol' qC nc [cFar, cNear] = [cFar, cNear] := by
      rw [capCandidates, if_pos]
      simpa using hnc
    have hpassN : passes ⟨50, 8 / 10, d0, b, nc, 2⟩ qC
        (⟨qC.id, cNear, 10, 95 / 100, pol'.comb 10 (95 / 100)⟩ : CandidatePair) = true := by
      rw [passes, if_neg (by simp [qC, cNear])]
      norm_num
    have hpassF : passes ⟨50, 8 / 10, d0, b, nc, 2⟩ qC
        (⟨qC.id, cFar, 30, 9 / 10, pol'.comb 30 (9 / 10)⟩ : CandidatePair) = true := by
      rw [passes, if_neg (by simp [qC, cFar])]
      norm_num
    have hC : scoredSurvivors ⟨50, 8 / 10, d0, b, nc, 2⟩ pol' [cFar, cNear] qC
        = [⟨qC.id, cFar, 30, 9 / 10, pol'.comb 30 (9 / 10)⟩,
            ⟨qC.id, cNear, 10, 95 / 100, pol'.comb 10 (95 / 100)⟩] := by
      rw [scoredSurvivors]
      show ((capCandidates pol' qC nc
          (queryRadius pol' [cFar, cNear] qC 50)).map (mkPair pol' qC)).filter _ = _
      rw [hA, hB, List.map_cons, List.map_cons, List.map_nil, hpairF, hpairN,
        List.filter_cons, List.filter_cons, List.filter_nil, hpassF, hpassN]
      simp
    have hD : dedupPairs [(⟨qC.id, cFar, 30, 9 / 10, pol'.comb 30 (9 / 10)⟩ : CandidatePair),
          ⟨qC.id, cNear, 10, 95 / 100, pol'.comb 10 (95 / 100)⟩]
        = [⟨qC.id, cNear, 10, 95 / 100, pol'.comb 10 (95 / 100)⟩,
            ⟨qC.id, cFar, 30, 9 / 10, pol'.comb 30 (9 / 10)⟩] := by
      show dedupInsert _ (dedupPairs _) = _
      rw [show dedupPairs [(⟨qC.id, cNear, 10, 95 / 100,
          pol'.comb 10 (95 / 100)⟩ : CandidatePair)]
          = [⟨qC.id, cNear, 10, 95 / 100, pol'.comb 10 (95 / 100)⟩] from rfl]
      rw [dedupInsert, if_neg (fun h => (by decide : ¬ cNear.id = cFar.id) h)]
      rfl
    have hscore : pol'.comb 30 (9 / 10) ≤ pol'.comb 10 (95 / 100) :=
      le_trans (hms 30 (9 / 10) (95 / 100) (by norm_num))
        (hmd (95 / 100) 10 30 (by norm_num))
    have hML : matchLE (⟨qC.id, cNear, 10, 95 / 100, pol'.comb 10 (95 / 100)⟩ : CandidatePair)
        ⟨qC.id, cFar, 30, 9 / 10, pol'.comb 30 (9 / 10)⟩ := by
      rcases lt_or_eq_of_le hscore with h | h
      · exact Or.inl h
      · exact Or.inr ⟨h.symm, Or.inl (by norm_num)⟩
    have hE : List.insertionSort matchLE
          [(⟨qC.id, cNear, 10, 95 / 100, pol'.comb 10 (95 / 100)⟩ : CandidatePair),
            ⟨qC.id, cFar, 30, 9 / 10, pol'.comb 30 (9 / 10)⟩]
        = [⟨qC.id, cNear, 10, 95 / 100, pol'.comb 10 (95 / 100)⟩,
            ⟨qC.id, cFar, 30, 9 / 10, pol'.comb 30 (9 / 10)⟩] := by
      rw [List.insertionSort, List.insertionSort, List.insertionSort,
        List.orderedInsert_nil, List.orderedInsert_of_le matchLE _ hML]
    rw [matchSet, hC, hD, hE]
    rfl

/-!
Modelled from the spec: the parallel execution model of §5 — workers score
distinct query points independently and in an arbitrary completion order; the
single-writer Reporter assembles the per-query buffers in query-point input
order before emitting them.
-/

/-- Modelled from the spec: the output buffer one worker produces for the
query point at input position `i` (§5); out-of-range indices produce
nothing. -/
def queryRecords (cfg : Config) (pol : Policy) (cands : List SourcePoint)
    (queries : List SourcePoint) (i : Nat) : List MatchInfo :=
  match queries[i]? with
  | some q => reportQuery q (matchSet cfg pol cands q)
  | none => []

/-- Order on indexed worker results: by query-point input position. -/
def idxLE (a b : Nat × List MatchInfo) : Prop := a.1 ≤ b.1

instance : DecidableRel idxLE := fun a b => inferInstanceAs (Decidable (_ ≤ _))

/-- Modelled from the spec: the Reporter's assembly step (§5) — indexed worker
buffers are put back into query-point input order and concatenated. -/
def assemble (results : List (Nat × List MatchInfo)) : List MatchInfo :=
  ((results.insertionSort idxLE).map (fun x => x.2)).flatten

/-- Modelled from the spec: a run in which workers complete the query points
in the arbitrary order `order` (§5). -/
def parallelRun (order : List Nat) (cfg : Config) (pol : Policy)
    (cands : List SourcePoint) (queries : List SourcePoint) : List MatchInfo :=
  assemble (order.map (fun i => (i, queryRecords cfg pol cands queries i)))

theorem orderedInsert_map_idx (f : Nat → List MatchInfo) (a : Nat) (l : List Nat) :
    List.orderedInsert idxLE (a, f a) (l.map (fun i => (i, f i)))
      = (List.orderedInsert (· ≤ ·) a l).map (fun i => (i, f i)) := by
  induction l with
  | nil => rfl
  | cons b t ih =>
    rw [List.map_cons, List.orderedInsert, List.orderedInsert]
    by_cases h : a ≤ b
    · rw [if_pos (show idxLE (a, f a) (b, f b) from h), if_pos h,
        List.map_cons, List.map_cons]
    · rw [if_neg (show ¬ idxLE (a, f a) (b, f b) from h), if_neg h,
        List.map_cons, ih]

theorem insertionSort_map_idx (f : Nat → List MatchInfo) (l : List Nat) :
    (l.map (fun i => (i, f i))).insertionSort idxLE
      = (l.insertionSort (· ≤ ·)).map (fun i => (i, f i)) := by
  induction l with
  | nil => rfl
  | cons a t ih =>
    rw [List.map_cons, List.insertionSort, List.insertionSort, ih,
      orderedInsert_map_idx]

theorem insertionSort_of_perm_range {order : List Nat} {n : Nat}
    (h : order.Perm (List.range n)) :
    order.insertionSort (· ≤ ·) = List.range n := by
  exact @List.eq_of_perm_of_sorted Nat (· ≤ ·) inferInstance _ _
    ((List.perm_insertionSort _ order).trans h)
    (List.sorted_insertionSort _ order)
    ((List.pairwise_lt_range n).imp le_of_lt)

theorem range_map_queryRecords (cfg : Config) (pol : Policy)
    (cands : List SourcePoint) (queries : List SourcePoint) :
    (List.range queries.length).map (queryRecords cfg pol cands queries)
      = queries.map (fun q => reportQuery q (matchSet cfg pol cands q)) := by
  induction queries with
  | nil => rfl
  | cons q t ih =>
    rw [List.length_cons, List.range_succ_eq_map, List.map_cons, List.map_cons,
      List.map_map]
    congr 1
    · rw [queryRecords, List.getElem?_cons_zero]
    · rw [← ih]
      apply List.map_congr_left
      intro i hi
      show queryRecords cfg pol cands (q :: t) (i + 1) = queryRecords cfg pol cands t i
      rw [queryRecords, queryRecords, List.getElem?_cons_succ]

theorem parallelRun_canonical (order : List Nat) (cfg : Config) (pol : Policy)
    (cands : List SourcePoint) (queries : List SourcePoint)
    (h : order.Perm (List.range queries.length)) :
    parallelRun order cfg pol cands queries = runEngine cfg pol cands queries := by
  rw [parallelRun, assemble,
    insertionSort_map_idx (queryRecords cfg pol cands queries) order,
    insertionSort_of_perm_range h, List.map_map]
  rw [runEngine, ← range_map_queryRecords cfg pol cands queries]
  rfl

/-- C6: determinism under parallelism — any two completion orders of the
per-query workers (each a permutation of the query positions) assemble to the
same output, which is the sequential engine output in query-point input
order. -/
theorem parallelRun_deterministic (cfg : Config) (pol : Policy)
    (cands : List SourcePoint) (queries : List SourcePoint) (o1 o2 : List Nat)
    (h1 : o1.Perm (List.range queries.length))
    (h2 : o2.Perm (List.range queries.length)) :
    parallelRun o1 cfg pol cands queries = parallelRun o2 cfg pol cands queries
    ∧ parallelRun o1 cfg pol cands queries = runEngine cfg pol cands queries := by
  have e1 := parallelRun_canonical o1 cfg pol cands queries h1
  have e2 := parallelRun_canonical o2 cfg pol cands queries h2
  exact ⟨e1.trans e2.symm, e1⟩

/-!
Modelled from the spec: the name-similarity metric (§4.4 step 2) — names are
lower-cased with punctuation and whitespace normalized, then compared by a
token-set-tolerant measure. The Jaccard similarity of the normalized token
sets is one such measure; it is used to settle the concrete Scenario A.
-/

/-- Normalization of one character: alphanumerics are lower-cased, everything
else (punctuation, whitespace) becomes a separator. -/
def normChar (c : Char) : Char :=
  if c.isAlphanum then c.toLower else ' '

/-- Tokenizer accumulator: splits the normalized characters at separators,
collecting the current token in reverse. -/
def tokenizeAux : Str → Str → List Str
  | [], cur => if cur.isEmpty then [] else [cur.reverse]
  | c :: rest, cur =>
    if normChar c = ' ' then
      if cur.isEmpty then tokenizeAux rest []
      else cur.reverse :: tokenizeAux rest []
    else tokenizeAux rest (normChar c :: cur)

/-- The normalized name tokens of a string. -/
def nameTokens (s : Str) : List Str := tokenizeAux s []

/-- Modelled from the spec: token-set similarity in [0, 1] — the Jaccard
similarity of the two normalized token sets (1 when the sets coincide,
0 when they are disjoint or both empty). -/
def tokenSetSim (a b : Str) : ℚ :=
  if ((nameTokens a).toFinset ∪ (nameTokens b).toFinset).card = 0 then 0
  else (((nameTokens a).toFinset ∩ (nameTokens b).toFinset).card : ℚ)
    / (((nameTokens a).toFinset ∪ (nameTokens b).toFinset).card : ℚ)

theorem tokenSetSim_bounds (a b : Str) : 0 ≤ tokenSetSim a b ∧ tokenSetSim a b ≤ 1 := by
  rw [tokenSetSim]
  split_ifs with h
  · exact ⟨le_refl 0, zero_le_one⟩
  · have hpos : (0 : ℚ) < (((nameTokens a).toFinset ∪ (nameTokens b).toFinset).card : ℚ) := by
      have := Nat.pos_of_ne_zero h
      exact_mod_cast this
    have hle : ((nameTokens a).toFinset ∩ (nameTokens b).toFinset).card
        ≤ ((nameTokens a).toFinset ∪ (nameTokens b).toFinset).card :=
      Finset.card_le_card Finset.inter_subset_union
    constructor
    · exact div_nonneg (by positivity) (le_of_lt hpos)
    · rw [div_le_one hpos]
      exact_mod_cast hle

/-- Scenario A query point: "We The Pizza" at (38.8865709, -77.0017128). -/
def qA : SourcePoint :=
  ⟨"node/6369767905".data, -770017128 / 10000000, 388865709 / 10000000,
    some ("We The Pizza".data), []⟩

/-- Scenario A candidate: "We, The Pizza" at the same coordinates. -/
def cA : SourcePoint :=
  ⟨"overture-poi-1".data, -770017128 / 10000000, 388865709 / 10000000,
    some ("We, The Pizza".data), []⟩

theorem nameTokens_scenarioA :
    nameTokens ("We The Pizza".data) = nameTokens ("We, The Pizza".data) := by decide

theorem tokenSetSim_scenarioA :
    tokenSetSim ("We The Pizza".data) ("We, The Pizza".data) = 1 := by
  have hsets : (nameTokens ("We The Pizza".data)).toFinset
      = (nameTokens ("We, The Pizza".data)).toFinset :=
    congrArg List.toFinset nameTokens_scenarioA
  rw [tokenSetSim, hsets, Finset.inter_self, Finset.union_self]
  have hcard : ((nameTokens ("We, The Pizza".data)).toFinset).card ≠ 0 := by decide
  rw [if_neg hcard, div_self (by exact_mod_cast hcard)]

/-- C7: in Scenario A — query "We The Pizza" and candidate "We, The Pizza" at
identical coordinates, `max_link_distance_m = 50`, `min_similarity = 0.8`,
the token-set similarity metric, and any great-circle distance (zero at equal
coordinates) — the engine produces exactly one match, with `distance_m = 0`
and similarity at least 0.85 (here exactly 1). -/
theorem scenarioA_one_match (dist : SourcePoint → SourcePoint → ℚ)
    (comb : ℚ → ℚ → ℚ) (d0 : ℚ) (b : Bool) (nc nm : Nat)
    (hd : dist qA cA = 0) (hnc : 1 ≤ nc) (hnm : 1 ≤ nm) :
    matchSet ⟨50, 8 / 10, d0, b, nc, nm⟩ ⟨dist, tokenSetSim, comb⟩ [cA] qA
        = [⟨qA.id, cA, 0, 1, comb 0 1⟩]
    ∧ (matchSet ⟨50, 8 / 10, d0, b, nc, nm⟩ ⟨dist, tokenSetSim, comb⟩ [cA] qA).length = 1
    ∧ ∀ p ∈ matchSet ⟨50, 8 / 10, d0, b, nc, nm⟩ ⟨dist, tokenSetSim, comb⟩ [cA] qA,
        p.distance_m = 0 ∧ (85 / 100 : ℚ) ≤ p.similarity := by
  have hqn : qA.name = some ("We The Pizza".data) := rfl
  have hcn : cA.name = some ("We, The Pizza".data) := rfl
  have hpair : mkPair ⟨dist, tokenSetSim, comb⟩ qA cA = ⟨qA.id, cA, 0, 1, comb 0 1⟩ := by
    show (⟨qA.id, cA, dist qA cA,
        tokenSetSim ("We The Pizza".data) ("We, The Pizza".data),
        comb (dist qA cA)
          (tokenSetSim ("We The Pizza".data) ("We, The Pizza".data))⟩ : CandidatePair) = _
    rw [hd, tokenSetSim_scenarioA]
  have hA : queryRadius ⟨dist, tokenSetSim, comb⟩ [cA] qA (50 : ℚ) = [cA] := by
    simp only [queryRadius, List.filter_cons, List.filter_nil, hd]
    norm_num
  have hB : capCandidates ⟨dist, tokenSetSim, comb⟩ qA nc [cA] = [cA] := by
    rw [capCandidates, if_pos]
    simpa using hnc
  have hpass : passes ⟨50, 8 / 10, d0, b, nc, nm⟩ qA
      (⟨qA.id, cA, 0, 1, comb 0 1⟩ : CandidatePair) = true := by
    rw [passes, if_neg (by simp [qA, cA])]
    norm_num
  have hC : scoredSurvivors ⟨50, 8 / 10, d0, b, nc, nm⟩ ⟨dist, tokenSetSim, comb⟩ [cA] qA
      = [⟨qA.id, cA, 0, 1, comb 0 1⟩] := by
    rw [scoredSurvivors]
    show ((capCandidates ⟨dist, tokenSetSim, comb⟩ qA nc
        (queryRadius ⟨dist, tokenSetSim, comb⟩ [cA] qA 50)).map
      (mkPair ⟨dist, tokenSetSim, comb⟩ qA)).filter _ = _
    rw [hA, hB, List.map_cons, List.map_nil, hpair,
      List.filter_cons, List.filter_nil, hpass]
    simp
  have hMS : matchSet ⟨50, 8 / 10, d0, b, nc, nm⟩ ⟨dist, tokenSetSim, comb⟩ [cA] qA
      = [⟨qA.id, cA, 0, 1, comb 0 1⟩] := by
    rw [matchSet, hC]
    rw [show dedupPairs [(⟨qA.id, cA, 0, 1, comb 0 1⟩ : CandidatePair)]
        = [⟨qA.id, cA, 0, 1, comb 0 1⟩] from rfl]
    rw [show List.insertionSort matchLE [(⟨qA.id, cA, 0, 1, comb 0 1⟩ : CandidatePair)]
        = [⟨qA.id, cA, 0, 1, comb 0 1⟩] from rfl]
    exact List.take_of_length_le (by simpa using hnm)
  refine ⟨hMS, by rw [hMS]; rfl, ?_⟩
  intro p hp
  rw [hMS, List.mem_singleton] at hp
  subst hp
  exact ⟨rfl, by norm_num⟩

/-- A concrete policy for witnesses: zero distance, the token-set similarity
metric, and score = similarity minus distance. -/
def polW : Policy := ⟨fun _ _ => 0, tokenSetSim, fun d s => s - d⟩

/-- A concrete query point for witnesses. -/
def qW : SourcePoint := ⟨"node/1".data, 0, 0, some ("Cafe One".data), []⟩

/-- A second concrete query point for witnesses. -/
def qW2 : SourcePoint := ⟨"node/2".data, 1, 1, some ("Cafe Two".data), []⟩

/-- A concrete candidate point for witnesses. -/
def cW : SourcePoint :=
  ⟨"cand1".data, 0, 0, some ("Cafe One".data), [("phone".data, "555".data)]⟩

/-- A concrete configuration for witnesses. -/
def cfgW : Config := ⟨50, 1 / 2, 10, false, 5, 3⟩

/-- A concrete policy realizing the Scenario C distances and similarities. -/
def polC2 : Policy :=
  ⟨fun _ c => if c.id = "near".data then 10 else 30,
    fun _ b => if b = "Near Name".data then 95 / 100 else 9 / 10,
    fun d s => s - d / 100⟩

theorem runEngine_records_witness :
    (∀ q ∈ [qW],
      (runEngine cfgW polW [cW] [qW]).filter (fun r => decide (r.osm_id = q.id))
        = (matchSet cfgW polW [cW] q).map (pairRecord q))
    ∧ ∀ r ∈ runEngine cfgW polW [cW] [qW],
        ∃ q ∈ [qW], ∃ p ∈ matchSet cfgW polW [cW] q, r = pairRecord q p :=
  runEngine_records cfgW polW [cW] [qW] (by decide)

theorem matchSet_sorted_witness :
    List.Sorted matchLE (matchSet cfgW polW [cW] qW)
    ∧ matchSet ⟨50, 8 / 10, 10, false, 5, 2⟩ polC2 [cFar, cNear] qC
        = [mkPair polC2 qC cNear, mkPair polC2 qC cFar] :=
  matchSet_sorted cfgW polW [cW] qW polC2 10 false 5 (by norm_num)
    rfl rfl rfl rfl
    (fun s d d' h => by
      show s - d' / 100 ≤ s - d / 100
      linarith)
    (fun d s s' h => by
      show s - d / 100 ≤ s' - d / 100
      linarith)

theorem matchSet_bounds_witness :
    (∀ a c : SourcePoint, 0 ≤ polW.dist a c)
    ∧ ∀ p ∈ matchSet cfgW polW [cW] qW,
        (0 ≤ p.similarity ∧ p.similarity ≤ 1)
        ∧ 0 ≤ p.distance_m
        ∧ (if qW.name = none ∧ p.cand.name = none
            then p.distance_m ≤ cfgW.distance_only_max_m
            else p.distance_m ≤ cfgW.max_link_distance_m)
        ∧ ((qW.name = none ∨ p.cand.name = none) → p.similarity = 0) :=
  ⟨fun _ _ => le_refl 0,
    matchSet_bounds cfgW polW [cW] qW (fun a b => tokenSetSim_bounds a b)
      (fun _ _ => le_refl 0)⟩

theorem parallelRun_deterministic_witness :
    parallelRun [1, 0] cfgW polW [cW] [qW, qW2]
        = parallelRun [0, 1] cfgW polW [cW] [qW, qW2]
    ∧ parallelRun [1, 0] cfgW polW [cW] [qW, qW2]
        = runEngine cfgW polW [cW] [qW, qW2] :=
  parallelRun_deterministic cfgW polW [cW] [qW, qW2] [1, 0] [0, 1]
    (by decide) (by decide)

theorem scenarioA_one_match_witness :
    matchSet ⟨50, 8 / 10, 10, false, 5, 3⟩
        ⟨fun _ _ => 0, tokenSetSim, fun d s => s - d⟩ [cA] qA
      = [⟨qA.id, cA, 0, 1, (1 : ℚ) - 0⟩]
    ∧ (matchSet ⟨50, 8 / 10, 10, false, 5, 3⟩
        ⟨fun _ _ => 0, tokenSetSim, fun d s => s - d⟩ [cA] qA).length = 1
    ∧ ∀ p ∈ matchSet ⟨50, 8 / 10, 10, false, 5, 3⟩
        ⟨fun _ _ => 0, tokenSetSim, fun d s => s - d⟩ [cA] qA,
        p.distance_m = 0 ∧ (85 / 100 : ℚ) ≤ p.similarity :=
  scenarioA_one_match (fun _ _ => 0) (fun d s => s - d) 10 false 5 3 rfl
    (by norm_num) (by norm_num)

end Engine
